import Mathlib

/-!
# Verification of the `pickled` value model against its specification

A shallow embedding, in Lean 4, of the parts of the `pickled` repository
(files `src/value.rs` and `src/consts.rs`) that the specification's claims
talk about:

* the data model (`Value`, `HashableValue`, `RawHashableValue`),
* the cross-type total-order comparator `impl Ord for HashableValue`
  with its helpers `float_ord`, `total_float_ord`, `float_bigint_ord`,
* the conversions `Value::into_hashable`, `Value::into_raw_hashable`,
  `HashableValue::into_value`, `HashableValue::to_string_key`,
* the equality of the shared-ownership wrappers `Shared`/`SharedFrozen`,
* the opcode table `impl TryFrom<u8> for Opcode`.

Machine integers are represented by `Int`/`Nat`.  IEEE-754 doubles are
represented by their 64-bit pattern, a `Nat` below `2 ^ 64`, with the
arithmetic (field extraction, comparisons, casts, rounding) spelled out
on `Nat`/`Int`, so that every definition is executable.
-/

set_option maxRecDepth 8000
set_option exponentiation.threshold 2000

namespace Pickled

/-! ## Ordering basics

`Ordering` comparators in the style of Rust's `std::cmp::Ordering`.
`Ordering.swap` is Lean's counterpart of `Ordering::reverse`. -/

/-- Comparator on `Int`, the shallow embedding of `i64::cmp` and of
`num_bigint::BigInt::cmp` (both compare by mathematical value). -/
def intCmp (a b : Int) : Ordering :=
  if a < b then .lt else if a = b then .eq else .gt

/-- Comparator on `Nat`, the shallow embedding of `u8::cmp` / unsigned
integer comparison. -/
def natCmp (a b : Nat) : Ordering :=
  if a < b then .lt else if a = b then .eq else .gt

/-- `bool::cmp`: `false < true`. -/
def boolCmp (a b : Bool) : Ordering :=
  intCmp (if a then 1 else 0) (if b then 1 else 0)

/-- `char::cmp` compares code points; on `Char` we compare `Char.toNat`. -/
def charCmp (a b : Char) : Ordering :=
  natCmp a.toNat b.toNat

theorem intCmp_swap (a b : Int) : intCmp a b = (intCmp b a).swap := by
  unfold intCmp
  rcases lt_trichotomy a b with h | h | h
  · rw [if_pos h, if_neg (not_lt.mpr h.le), if_neg h.ne']
    rfl
  · subst h
    rw [if_neg (lt_irrefl a), if_pos rfl]
    rfl
  · rw [if_neg (not_lt.mpr h.le), if_neg h.ne', if_pos h]
    rfl

theorem intCmp_eq_eq {a b : Int} (h : intCmp a b = .eq) : a = b := by
  unfold intCmp at h
  split at h
  · exact absurd h (by simp)
  · split at h
    · assumption
    · exact absurd h (by simp)

theorem intCmp_eq_lt {a b : Int} (h : intCmp a b = .lt) : a < b := by
  unfold intCmp at h
  split at h
  · assumption
  · split at h <;> exact absurd h (by simp)

theorem intCmp_lt_of_lt {a b : Int} (h : a < b) : intCmp a b = .lt := by
  unfold intCmp
  simp [h]

theorem intCmp_ne_gt {a b : Int} (h : intCmp a b ≠ .gt) : a ≤ b := by
  unfold intCmp at h
  split at h
  · exact le_of_lt (by assumption)
  · split at h
    · exact le_of_eq (by assumption)
    · simp at h

theorem intCmp_le_trans {a b c : Int} (h1 : intCmp a b ≠ .gt) (h2 : intCmp b c ≠ .gt) :
    intCmp a c ≠ .gt := by
  have hab := intCmp_ne_gt h1
  have hbc := intCmp_ne_gt h2
  have : a ≤ c := le_trans hab hbc
  unfold intCmp
  rcases lt_or_eq_of_le this with h | h <;> simp [h]

theorem natCmp_eq_intCmp (a b : Nat) : natCmp a b = intCmp a b := by
  unfold natCmp intCmp
  rcases Nat.lt_trichotomy a b with h | h | h
  · simp [h, Int.ofNat_lt.mpr h]
  · simp [h]
  · have h1 : ¬ a < b := Nat.not_lt.mpr (Nat.le_of_lt h)
    have h2 : a ≠ b := (Nat.ne_of_lt h).symm
    have h3 : ¬ (a : Int) < b := by exact_mod_cast h1
    have h4 : (a : Int) ≠ b := by exact_mod_cast h2
    simp [h1, h2, h3, h4]

/-- Lexicographic comparison of two lists by an element comparator: this is
how Rust compares `Vec<T>`, slices and `BTreeSet<T>` iterators (shorter
prefix compares less). -/
def lexCmp (c : α → α → Ordering) : List α → List α → Ordering
  | [], [] => .eq
  | [], _ :: _ => .lt
  | _ :: _, [] => .gt
  | a :: as, b :: bs =>
    match c a b with
    | .eq => lexCmp c as bs
    | o => o

/-! ## The IEEE-754 binary64 model

A double is its bit pattern: a `Nat` (meaningful below `2 ^ 64`).
Sign bit 63, exponent bits 52–62, fraction bits 0–51. -/

/-- Exponent field of a double's bit pattern. -/
def f64Exp (bits : Nat) : Nat := bits / 2 ^ 52 % 2 ^ 11

/-- Fraction field of a double's bit pattern. -/
def f64Frac (bits : Nat) : Nat := bits % 2 ^ 52

/-- Sign bit of a double's bit pattern (true = negative). -/
def f64SignBit (bits : Nat) : Bool := bits / 2 ^ 63 % 2 = 1

/-- `f64::is_nan`: exponent all ones with a nonzero fraction. -/
def f64IsNaN (bits : Nat) : Bool := f64Exp bits = 2047 && f64Frac bits ≠ 0

/-- Infinity test: exponent all ones, zero fraction. -/
def f64IsInf (bits : Nat) : Bool := f64Exp bits = 2047 && f64Frac bits = 0

/-- Magnitude of a double's value scaled by `2 ^ 1074` (an integer, since
the least magnitude of a subnormal is `2 ^ (-1074)`); the infinities get
magnitudes beyond every finite double, preserving order. -/
def f64ScaledMag (bits : Nat) : Nat :=
  let e := f64Exp bits
  let f := f64Frac bits
  if e = 0 then f else (2 ^ 52 + f) * 2 ^ (e - 1)

/-- The numeric value of a non-NaN double, scaled by `2 ^ 1074`.
`+0` and `-0` both map to `0`. -/
def f64ScaledVal (bits : Nat) : Int :=
  if f64SignBit bits then -(f64ScaledMag bits : Int) else (f64ScaledMag bits : Int)

/-- `f64::partial_cmp`: `none` iff an operand is NaN, otherwise compare by
value (`+0 = -0`, the infinities at the extremes). -/
def f64Pcmp (x y : Nat) : Option Ordering :=
  if f64IsNaN x || f64IsNaN y then none
  else some (intCmp (f64ScaledVal x) (f64ScaledVal y))

/-- The sign-magnitude integer key realised by `f64::total_cmp`: bit
patterns of negative doubles (sign bit set) are mapped below the others,
reversed; this is exactly the `left ^= …; left.cmp(&right)` trick of the
standard library. -/
def f64TotalKey (bits : Nat) : Int :=
  if bits < 2 ^ 63 then (bits : Int) else ((2 ^ 63 - 1 : Nat) : Int) - (bits : Int)

/-- `f64::total_cmp`: the IEEE-754 `totalOrder` predicate,
`-NaN < -∞ < … < -0 < +0 < … < +∞ < +NaN`. -/
def f64TotalCmp (x y : Nat) : Ordering :=
  intCmp (f64TotalKey x) (f64TotalKey y)

/-- Fuel-driven base-2 logarithm (`Nat.log2` in the standard library is
defined by well-founded recursion, which the kernel cannot evaluate; this
structural version does evaluate). -/
def natLog2Aux : Nat → Nat → Nat
  | 0, _ => 0
  | fuel + 1, n => if n ≤ 1 then 0 else natLog2Aux fuel (n / 2) + 1

/-- `⌊log₂ n⌋` for `n ≥ 1` (and `0` at `0`). -/
def natLog2 (n : Nat) : Nat := natLog2Aux n n

theorem natLog2Aux_bracket :
    ∀ fuel n, n ≤ fuel → 1 ≤ n →
      2 ^ natLog2Aux fuel n ≤ n ∧ n < 2 ^ (natLog2Aux fuel n + 1) := by
  intro fuel
  induction fuel with
  | zero => intro n hn h1; omega
  | succ fuel ih =>
    intro n hn h1
    by_cases hsmall : n ≤ 1
    · have : n = 1 := by omega
      subst this
      simp [natLog2Aux]
    · have h2 : 2 ≤ n := by omega
      have hdiv1 : 1 ≤ n / 2 := Nat.one_le_div_iff (by omega) |>.mpr h2
      have hdivfuel : n / 2 ≤ fuel := by
        have := Nat.div_le_self n 2
        have := Nat.div_lt_self (by omega : 0 < n) (by omega : 1 < 2)
        omega
      obtain ⟨hlo, hhi⟩ := ih (n / 2) hdivfuel hdiv1
      rw [natLog2Aux, if_neg hsmall]
      constructor
      · calc 2 ^ (natLog2Aux fuel (n / 2) + 1)
            = 2 * 2 ^ natLog2Aux fuel (n / 2) := by ring
          _ ≤ 2 * (n / 2) := by omega
          _ ≤ n := Nat.mul_div_le n 2
      · have : n / 2 + 1 ≤ 2 ^ (natLog2Aux fuel (n / 2) + 1) := hhi
        have hn2 : n < 2 * (n / 2 + 1) := by omega
        calc n < 2 * (n / 2 + 1) := hn2
          _ ≤ 2 * 2 ^ (natLog2Aux fuel (n / 2) + 1) := by omega
          _ = 2 ^ (natLog2Aux fuel (n / 2) + 1 + 1) := by ring

theorem natLog2_bracket (n : Nat) (h1 : 1 ≤ n) :
    2 ^ natLog2 n ≤ n ∧ n < 2 ^ (natLog2 n + 1) :=
  natLog2Aux_bracket n n le_rfl h1

/-- Round a natural number to the nearest binary64 (ties to even) and
return the bit pattern of the (nonnegative) result, `+∞` on overflow.
This is the common core of the `i64 -> f64` cast and of
`BigInt::to_f64`. -/
def roundNatToF64 (n : Nat) : Nat :=
  if n = 0 then 0
  else
    let p := natLog2 n
    if p ≤ 52 then
      (p + 1023) * 2 ^ 52 + (n * 2 ^ (52 - p) - 2 ^ 52)
    else
      let shift := p - 52
      let q := n / 2 ^ shift
      let r := n % 2 ^ shift
      let half := 2 ^ (shift - 1)
      let m := if half < r || (r = half && q % 2 = 1) then q + 1 else q
      let (m, p) := if m = 2 ^ 53 then (2 ^ 52, p + 1) else (m, p)
      if 1024 ≤ p then 2047 * 2 ^ 52 else (p + 1023) * 2 ^ 52 + (m - 2 ^ 52)

/-- The Rust cast `i as f64` (round to nearest, ties to even; an `i64`
can never overflow to infinity). -/
def intToF64 (i : Int) : Nat :=
  if 0 ≤ i then roundNatToF64 i.toNat
  else 2 ^ 63 + roundNatToF64 (-i).toNat

/-- The Rust saturating cast `f as i64`: NaN to `0`, truncate toward zero,
clamp into `[-2 ^ 63, 2 ^ 63 - 1]`. -/
def f64ToI64 (bits : Nat) : Int :=
  if f64IsNaN bits then 0
  else
    let m : Int := (f64ScaledMag bits / 2 ^ 1074 : Nat)
    let t : Int := if f64SignBit bits then -m else m
    let lo : Int := -((2 ^ 63 : Nat) : Int)
    let hi : Int := ((2 ^ 63 - 1 : Nat) : Int)
    if t < lo then lo else if hi < t then hi else t

/-- `num_bigint::BigInt::to_f64` (the crate is a dependency, its source is
not part of this repository): rounds the integer to the nearest double and
returns `some` infinity rather than `none` when the magnitude overflows
`f64::MAX` (the crate truncates below the top 64 bits before rounding,
which can differ from round-to-nearest only for integers wider than 64
bits sitting exactly on a rounding tie; no statement below depends on
such inputs).  It never returns `none` on a `BigInt`. -/
def bigIntToF64 (i : Int) : Option Nat :=
  some (intToF64 i)

/-- `BigInt::is_positive`: strictly positive sign. -/
def bigIntIsPositive (i : Int) : Bool := 0 < i

/-- Bit pattern of `1.0`. -/
def f64BitsOne : Nat := 0x3FF0000000000000

/-- Bit pattern of `0.0`. -/
def f64BitsZero : Nat := 0

/-- Bit pattern of the standard quiet NaN (positive sign). -/
def f64BitsQNaN : Nat := 0x7FF8000000000000

/-- Bit pattern of the standard quiet NaN with the sign bit set. -/
def f64BitsNegQNaN : Nat := 0xFFF8000000000000

/-! ## The `HashableValue` data type (`src/value.rs`)

`Vec`/`BTreeSet` payloads are represented by an explicit list type
`HVList` (a `BTreeSet` by the list of its elements in ascending
iteration order, which is how its `Ord` instance consumes it); `Rc`
sharing is irrelevant to ordering and is collapsed.  `String` payloads
are Lean `String`s (valid UTF-8, compared bytewise in Rust, which
coincides with the code-point order used here); `Vec<u8>` payloads are
lists of naturals. -/

mutual

inductive HashableValue where
  | none
  | bool (b : Bool)
  | i64 (i : Int)
  | int (bi : Int)
  | f64 (bits : Nat)
  | bytes (bs : List Nat)
  | str (s : String)
  | tuple (t : HVList)
  | frozenset (s : HVList)
deriving DecidableEq

inductive HVList where
  | nil
  | cons (head : HashableValue) (tail : HVList)
deriving DecidableEq

end

/-- Convenience constructor for `HVList` from a Lean list. -/
def hvList : List HashableValue → HVList
  | [] => .nil
  | h :: t => .cons h (hvList t)

/-- Rust's `b as i64`. -/
def boolToI64 (b : Bool) : Int := if b then 1 else 0

/-- `float_ord` (`src/value.rs`): "a reasonable total ordering" for
floats; incomparable pairs (a NaN operand) are sent to `Less`. -/
def float_ord (f g : Nat) : Ordering :=
  match f64Pcmp f g with
  | some o => o
  | Option.none => .lt

/-- `total_float_ord` (`src/value.rs`): `f64::total_cmp`. -/
def total_float_ord (f g : Nat) : Ordering :=
  f64TotalCmp f g

/-- `float_bigint_ord` (`src/value.rs`): ordering between big integers
and floats. -/
def float_bigint_ord (bi : Int) (g : Nat) : Ordering :=
  match bigIntToF64 bi with
  | some f => float_ord f g
  | Option.none => if bigIntIsPositive bi then .gt else .lt

mutual

/-- `impl Ord for HashableValue` (`src/value.rs`), arm for arm. -/
def HashableValue.cmp : HashableValue → HashableValue → Ordering
  | .none, other =>
    match other with
    | .none => .eq
    | _ => .lt
  | .bool b, other =>
    match other with
    | .none => .gt
    | .bool b2 => boolCmp b b2
    | .i64 i2 => intCmp (boolToI64 b) i2
    | .int bi => intCmp (boolToI64 b) bi
    | .f64 f => float_ord (intToF64 (boolToI64 b)) f
    | _ => .lt
  | .i64 i, other =>
    match other with
    | .none => .gt
    | .bool b => intCmp i (boolToI64 b)
    | .i64 i2 => intCmp i i2
    | .int bi => intCmp i bi
    | .f64 f => float_ord (intToF64 i) f
    | _ => .lt
  | .int bi, other =>
    match other with
    | .none => .gt
    | .bool b => intCmp bi (boolToI64 b)
    | .i64 i => intCmp bi i
    | .int bi2 => intCmp bi bi2
    | .f64 f => float_bigint_ord bi f
    | _ => .lt
  | .f64 f, other =>
    match other with
    | .none => .gt
    | .bool b => float_ord f (intToF64 (boolToI64 b))
    | .i64 i => float_ord f (intToF64 i)
    | .int bi => intCmp (f64ToI64 f) bi
    | .f64 f2 => float_ord f f2
    | _ => .lt
  | .bytes bs, other =>
    match other with
    | .str _ | .frozenset _ | .tuple _ => .lt
    | .bytes bs2 => lexCmp natCmp bs bs2
    | _ => .gt
  | .str s, other =>
    match other with
    | .frozenset _ | .tuple _ => .lt
    | .str s2 => lexCmp charCmp s.data s2.data
    | _ => .gt
  | .frozenset s, other =>
    match other with
    | .tuple _ => .lt
    | .frozenset s2 => HashableValue.cmpList s s2
    | _ => .gt
  | .tuple t, other =>
    match other with
    | .tuple t2 => HashableValue.cmpList t t2
    | _ => .gt

/-- Lexicographic comparison of `HVList`s: `Vec::cmp` for tuples and the
iterator comparison `BTreeSet::cmp` for frozen sets. -/
def HashableValue.cmpList : HVList → HVList → Ordering
  | .nil, .nil => .eq
  | .nil, .cons _ _ => .lt
  | .cons _ _, .nil => .gt
  | .cons a as, .cons b bs =>
    match HashableValue.cmp a b with
    | .eq => HashableValue.cmpList as bs
    | o => o

end

/-- `impl PartialEq for HashableValue`: equality is `cmp` returning
`Equal`. -/
def HashableValue.eqb (a b : HashableValue) : Bool :=
  a.cmp b = Ordering.eq

/-! ### Analysis vocabulary for the `HashableValue` order

`rank` is the cross-variant rank of §3.4 of the specification (the
numeric cluster `Bool/I64/Int/F64` shares one rank); `numVal` is the
exact integer value of a non-float numeric variant; `noF64` says no
`F64` occurs anywhere in a value.  These are stated over the embedded
`cmp`, they are not part of the source. -/

/-- Variant rank realised by the cross-type arms of `cmp`:
`None < numeric < Bytes < String < FrozenSet < Tuple`. -/
def HashableValue.rank : HashableValue → Nat
  | .none => 0
  | .bool _ => 1
  | .i64 _ => 1
  | .int _ => 1
  | .f64 _ => 1
  | .bytes _ => 2
  | .str _ => 3
  | .frozenset _ => 4
  | .tuple _ => 5

/-- Exact integer value of the non-float numeric variants. -/
def HashableValue.numVal : HashableValue → Int
  | .bool b => boolToI64 b
  | .i64 i => i
  | .int bi => bi
  | _ => 0

mutual

/-- No `F64` variant occurs anywhere inside the value. -/
def HashableValue.noF64 : HashableValue → Bool
  | .f64 _ => false
  | .tuple t => HashableValue.noF64List t
  | .frozenset s => HashableValue.noF64List s
  | _ => true

/-- `noF64` for every element of a list. -/
def HashableValue.noF64List : HVList → Bool
  | .nil => true
  | .cons h t => HashableValue.noF64 h && HashableValue.noF64List t

end

theorem crossRank (a b : HashableValue) (h : a.rank ≠ b.rank) :
    a.cmp b = natCmp a.rank b.rank := by
  cases a <;> cases b <;> first | rfl | exact absurd rfl h

theorem numCmp (a b : HashableValue) (hra : a.rank = 1) (hrb : b.rank = 1)
    (ha : a.noF64 = true) (hb : b.noF64 = true) :
    a.cmp b = intCmp a.numVal b.numVal := by
  cases a <;> cases b <;>
    first
      | rfl
      | exact Bool.noConfusion ha
      | exact Bool.noConfusion hb
      | (simp only [HashableValue.rank] at hra hrb
         omega)

theorem natCmp_eq_lt {a b : Nat} (h : natCmp a b = .lt) : a < b := by
  rw [natCmp_eq_intCmp] at h
  exact_mod_cast intCmp_eq_lt h

theorem natCmp_eq_eq {a b : Nat} (h : natCmp a b = .eq) : a = b := by
  rw [natCmp_eq_intCmp] at h
  exact_mod_cast intCmp_eq_eq h

theorem natCmp_lt_of_lt {a b : Nat} (h : a < b) : natCmp a b = .lt := by
  rw [natCmp_eq_intCmp]
  exact intCmp_lt_of_lt (by exact_mod_cast h)

/-- The package of transitivity facts a lexicographic order needs from
its element comparator. -/
def Trans4 {α : Sort _} (c : α → α → Ordering) : Prop :=
  ∀ x y z : α,
    (c x y = .lt → c y z = .lt → c x z = .lt) ∧
    (c x y = .lt → c y z = .eq → c x z = .lt) ∧
    (c x y = .eq → c y z = .lt → c x z = .lt) ∧
    (c x y = .eq → c y z = .eq → c x z = .eq)

theorem intCmp_trans4 : Trans4 intCmp := by
  intro x y z
  refine ⟨?_, ?_, ?_, ?_⟩ <;> intro h1 h2
  · exact intCmp_lt_of_lt (lt_trans (intCmp_eq_lt h1) (intCmp_eq_lt h2))
  · exact intCmp_eq_eq h2 ▸ h1
  · exact intCmp_eq_eq h1 ▸ h2
  · exact intCmp_eq_eq h1 ▸ h2

theorem natCmp_trans4 : Trans4 natCmp := by
  intro x y z
  simp only [natCmp_eq_intCmp]
  exact intCmp_trans4 x y z

theorem charCmp_trans4 : Trans4 charCmp := by
  intro x y z
  exact natCmp_trans4 x.toNat y.toNat z.toNat

theorem lexCmp_trans4 {α} (c : α → α → Ordering) (h4 : Trans4 c) :
    Trans4 (lexCmp c) := by
  intro l1
  induction l1 with
  | nil =>
    intro l2 l3
    cases l2 <;> cases l3 <;> refine ⟨?_, ?_, ?_, ?_⟩ <;> intro h1 h2 <;>
      simp_all [lexCmp]
  | cons a as ih =>
    intro l2 l3
    cases l2 with
    | nil =>
      cases l3 <;> refine ⟨?_, ?_, ?_, ?_⟩ <;> intro h1 h2 <;> simp_all [lexCmp]
    | cons b bs =>
      cases l3 with
      | nil => refine ⟨?_, ?_, ?_, ?_⟩ <;> intro h1 h2 <;> simp_all [lexCmp]
      | cons z zs =>
        obtain ⟨hLL, hLE, hEL, hEE⟩ := h4 a b z
        obtain ⟨tLL, tLE, tEL, tEE⟩ := ih bs zs
        refine ⟨?_, ?_, ?_, ?_⟩ <;> intro h1 h2 <;>
            rcases hab : c a b with _ | _ | _ <;>
            rcases hbz : c b z with _ | _ | _ <;>
            simp only [lexCmp, hab, hbz] at h1 h2 ⊢ <;>
            first
              | rfl
              | exact Ordering.noConfusion h1
              | exact Ordering.noConfusion h2
              | rw [hLL hab hbz]
              | rw [hLE hab hbz]
              | rw [hEL hab hbz]
              | (rw [hEE hab hbz]
                 first
                   | exact tLL h1 h2
                   | exact tLE h1 h2
                   | exact tEL h1 h2
                   | exact tEE h1 h2)

theorem rank_cases (a : HashableValue) :
    a.rank = 0 ∨ a.rank = 1 ∨ a.rank = 2 ∨ a.rank = 3 ∨ a.rank = 4 ∨ a.rank = 5 := by
  cases a <;> simp [HashableValue.rank]

theorem rank_inv0 (a : HashableValue) (h : a.rank = 0) : a = .none := by
  cases a <;> first | rfl | simp [HashableValue.rank] at h

theorem rank_inv2 (a : HashableValue) (h : a.rank = 2) : ∃ bs, a = .bytes bs := by
  cases a <;> first | exact ⟨_, rfl⟩ | simp [HashableValue.rank] at h

theorem rank_inv3 (a : HashableValue) (h : a.rank = 3) : ∃ s, a = .str s := by
  cases a <;> first | exact ⟨_, rfl⟩ | simp [HashableValue.rank] at h

theorem rank_inv4 (a : HashableValue) (h : a.rank = 4) : ∃ s, a = .frozenset s := by
  cases a <;> first | exact ⟨_, rfl⟩ | simp [HashableValue.rank] at h

theorem rank_inv5 (a : HashableValue) (h : a.rank = 5) : ∃ t, a = .tuple t := by
  cases a <;> first | exact ⟨_, rfl⟩ | simp [HashableValue.rank] at h

theorem cmp_lt_rank {a b : HashableValue} (h : a.cmp b = .lt) : a.rank ≤ b.rank := by
  by_cases hr : a.rank = b.rank
  · exact le_of_eq hr
  · rw [crossRank a b hr] at h
    exact le_of_lt (natCmp_eq_lt h)

theorem cmp_eq_rank {a b : HashableValue} (h : a.cmp b = .eq) : a.rank = b.rank := by
  by_cases hr : a.rank = b.rank
  · exact hr
  · rw [crossRank a b hr] at h
    exact natCmp_eq_eq h

mutual

theorem cmp_trans4 (a b c₀ : HashableValue)
    (ha : a.noF64 = true) (hb : b.noF64 = true) (hc : c₀.noF64 = true) :
    (a.cmp b = .lt → b.cmp c₀ = .lt → a.cmp c₀ = .lt) ∧
    (a.cmp b = .lt → b.cmp c₀ = .eq → a.cmp c₀ = .lt) ∧
    (a.cmp b = .eq → b.cmp c₀ = .lt → a.cmp c₀ = .lt) ∧
    (a.cmp b = .eq → b.cmp c₀ = .eq → a.cmp c₀ = .eq) := by
  refine ⟨?_, ?_, ?_, ?_⟩ <;> intro h1 h2 <;>
    [ (have hr1 := cmp_lt_rank h1; have hr2 := cmp_lt_rank h2);
      (have hr1 := cmp_lt_rank h1; have hr2 := cmp_eq_rank h2);
      (have hr1 := cmp_eq_rank h1; have hr2 := cmp_lt_rank h2);
      (have hr1 := cmp_eq_rank h1; have hr2 := cmp_eq_rank h2)] <;>
    by_cases hac : a.rank = c₀.rank <;>
    first
      | (rw [crossRank a c₀ hac]
         exact natCmp_lt_of_lt (by omega))
      | omega
      | (have hrab : a.rank = b.rank := by omega
         have hrbc : b.rank = c₀.rank := by omega
         rcases rank_cases a with hr | hr | hr | hr | hr | hr
         · obtain rfl := rank_inv0 a hr
           obtain rfl := rank_inv0 b (hrab ▸ hr)
           obtain rfl := rank_inv0 c₀ (hac ▸ hr)
           first
             | exact Ordering.noConfusion h1
             | exact Ordering.noConfusion h2
             | rfl
         · rw [numCmp a b hr (hrab ▸ hr) ha hb] at h1
           rw [numCmp b c₀ (hrab ▸ hr) (hac ▸ hr) hb hc] at h2
           rw [numCmp a c₀ hr (hac ▸ hr) ha hc]
           first
             | exact (intCmp_trans4 _ _ _).1 h1 h2
             | exact (intCmp_trans4 _ _ _).2.1 h1 h2
             | exact (intCmp_trans4 _ _ _).2.2.1 h1 h2
             | exact (intCmp_trans4 _ _ _).2.2.2 h1 h2
         · obtain ⟨bs1, rfl⟩ := rank_inv2 a hr
           obtain ⟨bs2, rfl⟩ := rank_inv2 b (hrab ▸ hr)
           obtain ⟨bs3, rfl⟩ := rank_inv2 c₀ (hac ▸ hr)
           first
             | exact (lexCmp_trans4 natCmp natCmp_trans4 bs1 bs2 bs3).1 h1 h2
             | exact (lexCmp_trans4 natCmp natCmp_trans4 bs1 bs2 bs3).2.1 h1 h2
             | exact (lexCmp_trans4 natCmp natCmp_trans4 bs1 bs2 bs3).2.2.1 h1 h2
             | exact (lexCmp_trans4 natCmp natCmp_trans4 bs1 bs2 bs3).2.2.2 h1 h2
         · obtain ⟨s1, rfl⟩ := rank_inv3 a hr
           obtain ⟨s2, rfl⟩ := rank_inv3 b (hrab ▸ hr)
           obtain ⟨s3, rfl⟩ := rank_inv3 c₀ (hac ▸ hr)
           first
             | exact (lexCmp_trans4 charCmp charCmp_trans4 s1.data s2.data s3.data).1 h1 h2
             | exact (lexCmp_trans4 charCmp charCmp_trans4 s1.data s2.data s3.data).2.1 h1 h2
             | exact (lexCmp_trans4 charCmp charCmp_trans4 s1.data s2.data s3.data).2.2.1 h1 h2
             | exact (lexCmp_trans4 charCmp charCmp_trans4 s1.data s2.data s3.data).2.2.2 h1 h2
         · obtain ⟨l1, rfl⟩ := rank_inv4 a hr
           obtain ⟨l2, rfl⟩ := rank_inv4 b (hrab ▸ hr)
           obtain ⟨l3, rfl⟩ := rank_inv4 c₀ (hac ▸ hr)
           first
             | exact (cmpList_trans4 l1 l2 l3 ha hb hc).1 h1 h2
             | exact (cmpList_trans4 l1 l2 l3 ha hb hc).2.1 h1 h2
             | exact (cmpList_trans4 l1 l2 l3 ha hb hc).2.2.1 h1 h2
             | exact (cmpList_trans4 l1 l2 l3 ha hb hc).2.2.2 h1 h2
         · obtain ⟨l1, rfl⟩ := rank_inv5 a hr
           obtain ⟨l2, rfl⟩ := rank_inv5 b (hrab ▸ hr)
           obtain ⟨l3, rfl⟩ := rank_inv5 c₀ (hac ▸ hr)
           first
             | exact (cmpList_trans4 l1 l2 l3 ha hb hc).1 h1 h2
             | exact (cmpList_trans4 l1 l2 l3 ha hb hc).2.1 h1 h2
             | exact (cmpList_trans4 l1 l2 l3 ha hb hc).2.2.1 h1 h2
             | exact (cmpList_trans4 l1 l2 l3 ha hb hc).2.2.2 h1 h2)

theorem cmpList_trans4 (l1 l2 l3 : HVList)
    (ha : HashableValue.noF64List l1 = true) (hb : HashableValue.noF64List l2 = true)
    (hc : HashableValue.noF64List l3 = true) :
    (HashableValue.cmpList l1 l2 = .lt → HashableValue.cmpList l2 l3 = .lt →
      HashableValue.cmpList l1 l3 = .lt) ∧
    (HashableValue.cmpList l1 l2 = .lt → HashableValue.cmpList l2 l3 = .eq →
      HashableValue.cmpList l1 l3 = .lt) ∧
    (HashableValue.cmpList l1 l2 = .eq → HashableValue.cmpList l2 l3 = .lt →
      HashableValue.cmpList l1 l3 = .lt) ∧
    (HashableValue.cmpList l1 l2 = .eq → HashableValue.cmpList l2 l3 = .eq →
      HashableValue.cmpList l1 l3 = .eq) := by
  cases l1 with
  | nil =>
    cases l2 <;> cases l3 <;> refine ⟨?_, ?_, ?_, ?_⟩ <;> intro h1 h2 <;>
      simp_all [HashableValue.cmpList]
  | cons a as =>
    cases l2 with
    | nil =>
      cases l3 <;> refine ⟨?_, ?_, ?_, ?_⟩ <;> intro h1 h2 <;>
        simp_all [HashableValue.cmpList]
    | cons b bs =>
      cases l3 with
      | nil =>
        refine ⟨?_, ?_, ?_, ?_⟩ <;> intro h1 h2 <;>
          simp_all [HashableValue.cmpList]
      | cons z zs =>
        have hha : a.noF64 = true ∧ HashableValue.noF64List as = true := by
          simpa [HashableValue.noF64List, Bool.and_eq_true] using ha
        have hhb : b.noF64 = true ∧ HashableValue.noF64List bs = true := by
          simpa [HashableValue.noF64List, Bool.and_eq_true] using hb
        have hhc : z.noF64 = true ∧ HashableValue.noF64List zs = true := by
          simpa [HashableValue.noF64List, Bool.and_eq_true] using hc
        obtain ⟨hLL, hLE, hEL, hEE⟩ := cmp_trans4 a b z hha.1 hhb.1 hhc.1
        obtain ⟨tLL, tLE, tEL, tEE⟩ := cmpList_trans4 as bs zs hha.2 hhb.2 hhc.2
        refine ⟨?_, ?_, ?_, ?_⟩ <;> intro h1 h2 <;>
            rcases hab : a.cmp b with _ | _ | _ <;>
            rcases hbz : b.cmp z with _ | _ | _ <;>
            simp only [HashableValue.cmpList, hab, hbz] at h1 h2 ⊢ <;>
            first
              | rfl
              | exact Ordering.noConfusion h1
              | exact Ordering.noConfusion h2
              | rw [hLL hab hbz]
              | rw [hLE hab hbz]
              | rw [hEL hab hbz]
              | (rw [hEE hab hbz]
                 first
                   | exact tLL h1 h2
                   | exact tLE h1 h2
                   | exact tEL h1 h2
                   | exact tEE h1 h2)

end

/-- Exactly one of three alternatives holds. -/
def ExactlyOne (p q r : Prop) : Prop :=
  (p ∧ ¬q ∧ ¬r) ∨ (¬p ∧ q ∧ ¬r) ∨ (¬p ∧ ¬q ∧ r)

theorem cmp_trichotomy (a b : HashableValue) :
    ExactlyOne (a.cmp b = .lt) (a.cmp b = .eq) (a.cmp b = .gt) := by
  rcases h : a.cmp b <;> simp [ExactlyOne, h]

/-- C1, counterexample: the claimed transitivity of `<` fails on the code,
both through NaN (`F64(1.0) < F64(NaN)` and `F64(NaN) < F64(0.0)`, yet
`F64(1.0) > F64(0.0)`) and — even NaN-free — through the lossy `i64 -> f64`
cast inside tuples: `(2^53+1, 0) < (2^53 as f64, 1) < (2^53, 2)` while
`(2^53+1, 0) > (2^53, 2)`. -/
theorem c1_counterexample :
    (HashableValue.cmp (.f64 f64BitsOne) (.f64 f64BitsQNaN) = .lt ∧
     HashableValue.cmp (.f64 f64BitsQNaN) (.f64 f64BitsZero) = .lt ∧
     HashableValue.cmp (.f64 f64BitsOne) (.f64 f64BitsZero) = .gt) ∧
    (HashableValue.cmp
        (.tuple (hvList [.i64 (2 ^ 53 + 1), .i64 0]))
        (.tuple (hvList [.f64 (intToF64 (2 ^ 53)), .i64 1])) = .lt ∧
     HashableValue.cmp
        (.tuple (hvList [.f64 (intToF64 (2 ^ 53)), .i64 1]))
        (.tuple (hvList [.i64 (2 ^ 53), .i64 2])) = .lt ∧
     HashableValue.cmp
        (.tuple (hvList [.i64 (2 ^ 53 + 1), .i64 0]))
        (.tuple (hvList [.i64 (2 ^ 53), .i64 2])) = .gt) := by
  constructor
  · exact ⟨by decide, by decide, by decide⟩
  · decide

/-- C1, amended: for every pair of `HashableValue`s exactly one of
`cmp = Less`, `cmp = Equal`, `cmp = Greater` holds (`a < b`, `a == b`,
`a > b` under the `Ord`/`PartialEq` implementations); transitivity of `<`
holds for all values containing no `F64` component (it fails in general,
see the counterexample). -/
theorem c1_amended :
    (∀ a b : HashableValue,
      ExactlyOne (a.cmp b = .lt) (a.cmp b = .eq) (a.cmp b = .gt)) ∧
    (∀ a b c : HashableValue, a.noF64 = true → b.noF64 = true → c.noF64 = true →
      a.cmp b = .lt → b.cmp c = .lt → a.cmp c = .lt) :=
  ⟨cmp_trichotomy, fun a b c ha hb hc => (cmp_trans4 a b c ha hb hc).1⟩

/-- C1, witness: the amended transitivity at `I64 0 < Bytes [] < Str ""`. -/
theorem c1_witness :
    HashableValue.cmp (.i64 0) (.str "") = .lt :=
  c1_amended.2 (.i64 0) (.bytes []) (.str "")
    (by decide) (by decide) (by decide) (by decide) (by decide)

/-- C2, counterexample: `cmp(F64(1.0), F64(NaN))` is `Less`, not the
claimed `Greater` (`float_ord` sends every incomparable pair to `Less`),
and against an `Int` operand a NaN on the left is compared as the integer
`0` (the saturating `f64 -> i64` cast), so `cmp(F64(NaN), Int(-5))` is
`Greater`, not `Less`. -/
theorem c2_counterexample :
    f64IsNaN f64BitsQNaN = true ∧ f64IsNaN f64BitsOne = false ∧
    HashableValue.cmp (.f64 f64BitsOne) (.f64 f64BitsQNaN) = .lt ∧
    HashableValue.cmp (.f64 f64BitsQNaN) (.int (-5)) = .gt := by
  decide

/-- C2, amended: a NaN float on the left compares `Less` than every `F64`,
`Bool` and `I64` operand, but symmetrically those operands also compare
`Less` against a NaN on the right (never `Greater`); an `Int` operand on
the left compares `Less` against NaN, while `cmp(F64(NaN), Int(bi))`
compares `0` with `bi` (the NaN casts to `0`). -/
theorem c2_amended (n x : Nat) (hn : f64IsNaN n = true) (_hx : f64IsNaN x = false) :
    (HashableValue.cmp (.f64 n) (.f64 x) = .lt ∧
     HashableValue.cmp (.f64 x) (.f64 n) = .lt) ∧
    (∀ b : Bool, HashableValue.cmp (.f64 n) (.bool b) = .lt ∧
      HashableValue.cmp (.bool b) (.f64 n) = .lt) ∧
    (∀ i : Int, HashableValue.cmp (.f64 n) (.i64 i) = .lt ∧
      HashableValue.cmp (.i64 i) (.f64 n) = .lt) ∧
    (∀ bi : Int, HashableValue.cmp (.int bi) (.f64 n) = .lt) ∧
    (∀ bi : Int, HashableValue.cmp (.f64 n) (.int bi) = intCmp 0 bi) := by
  have hord : ∀ g : Nat, float_ord n g = .lt := by
    intro g
    simp [float_ord, f64Pcmp, hn]
  have hordr : ∀ g : Nat, float_ord g n = .lt := by
    intro g
    simp [float_ord, f64Pcmp, hn]
  refine ⟨⟨hord x, hordr x⟩, fun b => ⟨hord _, hordr _⟩, fun i => ⟨hord _, hordr _⟩,
    fun bi => ?_, fun bi => ?_⟩
  · show float_bigint_ord bi n = .lt
    simp [float_bigint_ord, bigIntToF64, hordr]
  · show intCmp (f64ToI64 n) bi = intCmp 0 bi
    simp [f64ToI64, hn]

/-- C2, witness: the amended statement at `n = NaN`, `x = 1.0`,
`bi = -5`. -/
theorem c2_witness :
    HashableValue.cmp (.f64 f64BitsQNaN) (.f64 f64BitsOne) = .lt ∧
    HashableValue.cmp (.f64 f64BitsOne) (.f64 f64BitsQNaN) = .lt ∧
    HashableValue.cmp (.f64 f64BitsQNaN) (.int (-5)) = intCmp 0 (-5) :=
  ⟨(c2_amended f64BitsQNaN f64BitsOne (by decide) (by decide)).1.1,
   (c2_amended f64BitsQNaN f64BitsOne (by decide) (by decide)).1.2,
   (c2_amended f64BitsQNaN f64BitsOne (by decide) (by decide)).2.2.2.2 (-5)⟩

/-- C3: `Bool(true)`, `I64(1)`, `Int(1)` and `F64(1.0)` are pairwise equal
under the `HashableValue` ordering: `cmp` returns `Equal` and `eq` returns
`true` on every ordered pair drawn from the four values. -/
theorem c3_numeric_equivalence :
    (HashableValue.cmp (.bool true) (.bool true) = .eq ∧
     HashableValue.cmp (.bool true) (.i64 1) = .eq ∧
     HashableValue.cmp (.bool true) (.int 1) = .eq ∧
     HashableValue.cmp (.bool true) (.f64 f64BitsOne) = .eq ∧
     HashableValue.cmp (.i64 1) (.bool true) = .eq ∧
     HashableValue.cmp (.i64 1) (.i64 1) = .eq ∧
     HashableValue.cmp (.i64 1) (.int 1) = .eq ∧
     HashableValue.cmp (.i64 1) (.f64 f64BitsOne) = .eq ∧
     HashableValue.cmp (.int 1) (.bool true) = .eq ∧
     HashableValue.cmp (.int 1) (.i64 1) = .eq ∧
     HashableValue.cmp (.int 1) (.int 1) = .eq ∧
     HashableValue.cmp (.int 1) (.f64 f64BitsOne) = .eq ∧
     HashableValue.cmp (.f64 f64BitsOne) (.bool true) = .eq ∧
     HashableValue.cmp (.f64 f64BitsOne) (.i64 1) = .eq ∧
     HashableValue.cmp (.f64 f64BitsOne) (.int 1) = .eq ∧
     HashableValue.cmp (.f64 f64BitsOne) (.f64 f64BitsOne) = .eq) ∧
    (HashableValue.eqb (.bool true) (.i64 1) = true ∧
     HashableValue.eqb (.bool true) (.int 1) = true ∧
     HashableValue.eqb (.bool true) (.f64 f64BitsOne) = true ∧
     HashableValue.eqb (.i64 1) (.int 1) = true ∧
     HashableValue.eqb (.i64 1) (.f64 f64BitsOne) = true ∧
     HashableValue.eqb (.int 1) (.f64 f64BitsOne) = true ∧
     HashableValue.eqb (.i64 1) (.bool true) = true ∧
     HashableValue.eqb (.int 1) (.bool true) = true ∧
     HashableValue.eqb (.f64 f64BitsOne) (.bool true) = true ∧
     HashableValue.eqb (.int 1) (.i64 1) = true ∧
     HashableValue.eqb (.f64 f64BitsOne) (.i64 1) = true ∧
     HashableValue.eqb (.f64 f64BitsOne) (.int 1) = true) := by
  constructor
  · decide
  · decide

/-! ## The encoder-internal `RawHashableValue` (`src/value.rs`)

Same payloads as `HashableValue`; its `Ord` compares the variant
discriminants first (so the numeric cluster splits into four ranks) and
`F64` payloads by `f64::total_cmp`. -/

mutual

inductive RawHashableValue where
  | none
  | bool (b : Bool)
  | i64 (i : Int)
  | int (bi : Int)
  | f64 (bits : Nat)
  | bytes (bs : List Nat)
  | str (s : String)
  | tuple (t : RawList)
  | frozenset (s : RawList)
deriving DecidableEq

inductive RawList where
  | nil
  | cons (head : RawHashableValue) (tail : RawList)
deriving DecidableEq

end

/-- The discriminant used by `impl Ord for RawHashableValue`
(`src/value.rs`, `__self_discr`): `None 0, Bool 1, I64 2, Int 3, F64 4,
Bytes 5, String 6, Tuple 7, FrozenSet 8`. -/
def RawHashableValue.discr : RawHashableValue → Nat
  | .none => 0
  | .bool _ => 1
  | .i64 _ => 2
  | .int _ => 3
  | .f64 _ => 4
  | .bytes _ => 5
  | .str _ => 6
  | .tuple _ => 7
  | .frozenset _ => 8

mutual

/-- `impl Ord for RawHashableValue` (`src/value.rs`): compare the
discriminants; on equality compare the payloads, `F64` by
`total_float_ord`, the default arm returning `Equal`. -/
def RawHashableValue.cmp (a b : RawHashableValue) : Ordering :=
  match natCmp a.discr b.discr with
  | .eq =>
    match a, b with
    | .bool x, .bool y => boolCmp x y
    | .i64 x, .i64 y => intCmp x y
    | .int x, .int y => intCmp x y
    | .bytes x, .bytes y => lexCmp natCmp x y
    | .str x, .str y => lexCmp charCmp x.data y.data
    | .tuple x, .tuple y => RawHashableValue.cmpList x y
    | .frozenset x, .frozenset y => RawHashableValue.cmpList x y
    | .f64 x, .f64 y => total_float_ord x y
    | _, _ => .eq
  | c => c

/-- Lexicographic list comparison for `Vec<RawHashableValue>` and
`BTreeSet<RawHashableValue>` payloads. -/
def RawHashableValue.cmpList : RawList → RawList → Ordering
  | .nil, .nil => .eq
  | .nil, .cons _ _ => .lt
  | .cons _ _, .nil => .gt
  | .cons a as, .cons b bs =>
    match RawHashableValue.cmp a b with
    | .eq => RawHashableValue.cmpList as bs
    | o => o

end

/-- C4: in the `RawHashableValue` ordering any two values of different
variants compare by the fixed discriminant rank (`None 0 < Bool 1 <
I64 2 < Int 3 < F64 4 < Bytes 5 < String 6 < Tuple 7 < FrozenSet 8`,
so the numeric cluster splits into four distinct ranks with `None`
below and the rest above), two `F64` payloads compare by the platform
total float order `f64::total_cmp`, and that order distinguishes NaN
by sign (`-NaN < +NaN`). -/
theorem c4_raw_order :
    (∀ a b : RawHashableValue, a.discr ≠ b.discr →
      a.cmp b = natCmp a.discr b.discr) ∧
    (∀ x y : Nat, RawHashableValue.cmp (.f64 x) (.f64 y) = total_float_ord x y) ∧
    (∀ b : Bool, (RawHashableValue.bool b).discr = 1) ∧
    (∀ i : Int, (RawHashableValue.i64 i).discr = 2) ∧
    (∀ bi : Int, (RawHashableValue.int bi).discr = 3) ∧
    (∀ bits : Nat, (RawHashableValue.f64 bits).discr = 4) ∧
    (RawHashableValue.none.discr = 0) ∧
    (∀ bs : List Nat, (RawHashableValue.bytes bs).discr = 5) ∧
    (∀ s : String, (RawHashableValue.str s).discr = 6) ∧
    (∀ t : RawList, (RawHashableValue.tuple t).discr = 7) ∧
    (∀ s : RawList, (RawHashableValue.frozenset s).discr = 8) ∧
    (f64IsNaN f64BitsNegQNaN = true ∧ f64IsNaN f64BitsQNaN = true ∧
     total_float_ord f64BitsNegQNaN f64BitsQNaN = .lt) := by
  refine ⟨?_, fun x y => rfl, fun b => rfl, fun i => rfl, fun bi => rfl,
    fun bits => rfl, rfl, fun bs => rfl, fun s => rfl, fun t => rfl, fun s => rfl,
    by decide, by decide, by decide⟩
  intro a b h
  cases a <;> cases b <;> first | rfl | exact absurd rfl h

/-- C4, witness: the cross-variant rank at `Bool true` vs `I64 0` (the
raw order ranks every `Bool` below every `I64`, unlike the public
order). -/
theorem c4_witness :
    RawHashableValue.cmp (.bool true) (.i64 0) = natCmp 1 2 :=
  c4_raw_order.1 (.bool true) (.i64 0) (by decide)

/-! ## `HashableValue::to_string_key` (`src/value.rs`) -/

/-- Rust's `str::contains(char)`. -/
def rustContainsChar (s : String) (c : Char) : Bool :=
  s.data.contains c

/-- Rust's `bool::to_string`: `"true"` / `"false"` (lowercase — the
Python-style `True`/`False` is only used by the `Display` impl for
values, not here). -/
def rustBoolToString (b : Bool) : String :=
  if b then "true" else "false"

/-- Rust's `i64::to_string` and `BigInt::to_string`: signed decimal.
Lean's `Int.repr` produces the same characters. -/
def rustIntToString (i : Int) : String :=
  Int.repr i

/-- Models Rust's `f64::to_string` (`Display`): `"NaN"`, `"inf"`/`"-inf"`,
and otherwise a plain decimal expansion, never exponent notation, with no
decimal point when the value is integral.  Rust prints the shortest
round-tripping decimal; this model prints the exact value, which can have
more fraction digits but contains a `'.'` exactly when Rust's output
does (both print fraction digits iff the value is not integral). -/
def f64Display (bits : Nat) : String :=
  if f64IsNaN bits then "NaN"
  else if f64IsInf bits then (if f64SignBit bits then "-inf" else "inf")
  else
    let m := f64ScaledMag bits
    let ip := m / 2 ^ 1074
    let fr := m % 2 ^ 1074
    let sign := if f64SignBit bits then "-" else ""
    if fr = 0 then sign ++ Nat.repr ip
    else
      let digits := Nat.toDigits 10 (fr * 5 ^ 1074)
      let padded := List.replicate (1074 - digits.length) '0' ++ digits
      let trimmed := (padded.reverse.dropWhile (fun c => c = '0')).reverse
      sign ++ Nat.repr ip ++ "." ++ String.mk trimmed

/-- `HashableValue::to_string_key` (`src/value.rs`), arm for arm. -/
def HashableValue.to_string_key : HashableValue → Option String
  | .str s => some s
  | .none => some "null"
  | .bool b => some (rustBoolToString b)
  | .i64 i => some (rustIntToString i)
  | .int bi => some (rustIntToString bi)
  | .f64 f =>
    let as_str := f64Display f
    let as_str := if rustContainsChar as_str '.' then as_str else as_str ++ ".0"
    some as_str
  | _ => Option.none

example : HashableValue.to_string_key (.f64 f64BitsOne) = some "1.0" := by decide
example : HashableValue.to_string_key (.f64 0x3FF8000000000000) = some "1.5" := by decide
example : HashableValue.to_string_key (.f64 f64BitsQNaN) = some "NaN.0" := by decide
example : HashableValue.to_string_key (.i64 (-7)) = some "-7" := by decide

/-- C5, counterexample: `to_string_key(Bool(true))` is `"true"` — Rust's
`bool::to_string` — not the claimed Python-style `"True"` (which is what
the `Display` impl prints for the value itself). -/
theorem c5_counterexample :
    HashableValue.to_string_key (.bool true) = some "true" ∧
    HashableValue.to_string_key (.bool true) ≠ some "True" ∧
    HashableValue.to_string_key (.bool false) = some "false" ∧
    HashableValue.to_string_key (.bool false) ≠ some "False" := by
  decide

/-- C5, amended: `to_string_key` returns the string itself for `String`,
`"null"` for `None`, the decimal rendering for `I64` and `Int`, the
lowercase `"true"`/`"false"` rendering for `Bool`, for `F64` a rendering
guaranteed to contain a decimal point, and no key for `Bytes`, `Tuple`
and `FrozenSet`. -/
theorem c5_amended :
    (∀ s, HashableValue.to_string_key (.str s) = some s) ∧
    (HashableValue.to_string_key .none = some "null") ∧
    (HashableValue.to_string_key (.bool true) = some "true" ∧
     HashableValue.to_string_key (.bool false) = some "false") ∧
    (∀ i, HashableValue.to_string_key (.i64 i) = some (rustIntToString i)) ∧
    (∀ bi, HashableValue.to_string_key (.int bi) = some (rustIntToString bi)) ∧
    (HashableValue.to_string_key (.i64 (-7)) = some "-7" ∧
     HashableValue.to_string_key (.int 12) = some "12") ∧
    (∀ f, ∃ s, HashableValue.to_string_key (.f64 f) = some s ∧
      rustContainsChar s '.' = true) ∧
    (∀ bs, HashableValue.to_string_key (.bytes bs) = Option.none) ∧
    (∀ t, HashableValue.to_string_key (.tuple t) = Option.none) ∧
    (∀ s, HashableValue.to_string_key (.frozenset s) = Option.none) := by
  refine ⟨fun s => rfl, rfl, ⟨by decide, by decide⟩, fun i => rfl, fun bi => rfl,
    ⟨by decide, by decide⟩, fun f => ?_, fun bs => rfl, fun t => rfl, fun s => rfl⟩
  by_cases h : rustContainsChar (f64Display f) '.' = true
  · exact ⟨f64Display f, by simp [HashableValue.to_string_key, h], h⟩
  · refine ⟨f64Display f ++ ".0", by simp [HashableValue.to_string_key, h], ?_⟩
    have hdata : (f64Display f ++ ".0").data = (f64Display f).data ++ ['.', '0'] := rfl
    simp [rustContainsChar, hdata]

/-- C5: the amended statement contains no hypothesis to discharge, but we
record the `F64` clause at `1.5` (`"1.5"` keeps its decimal point). -/
theorem c5_witness :
    ∃ s, HashableValue.to_string_key (.f64 0x3FF8000000000000) = some s ∧
      rustContainsChar s '.' = true :=
  c5_amended.2.2.2.2.2.2.1 0x3FF8000000000000

/-! ## Errors (`src/error.rs` is not among the repository's files)

Only the error shapes that `src/value.rs` and `src/consts.rs` construct
are needed: `Error::Syntax(ErrorCode)`, `ErrorCode::ValueNotHashable` and
`ErrorCode::Unsupported(char)`.  `ErrorCode::UnknownOpcode` is modelled
from the spec (§7 names an `UnknownOpcode(byte)` kind distinct from
`Unsupported`); it is needed to state claim C7. -/

inductive ErrorCode where
  | valueNotHashable
  | unsupported (c : Char)
  | unknownOpcode (b : Nat)
deriving DecidableEq

/-- The `Error` wrapper; `SyntaxErr` stands for Rust's `Error::Syntax`. -/
inductive Error where
  | SyntaxErr (code : ErrorCode)
deriving DecidableEq

/-! ## The `Value` data type and its conversions (`src/value.rs`) -/

mutual

inductive Value where
  | none
  | bool (b : Bool)
  | i64 (i : Int)
  | int (bi : Int)
  | f64 (bits : Nat)
  | bytes (bs : List Nat)
  | str (s : String)
  | list (l : VList)
  | tuple (t : VList)
  | set (s : HVList)
  | frozenset (s : HVList)
  | dict (d : VDict)
deriving DecidableEq

inductive VList where
  | nil
  | cons (head : Value) (tail : VList)
deriving DecidableEq

inductive VDict where
  | nil
  | cons (key : HashableValue) (val : Value) (tail : VDict)
deriving DecidableEq

end

mutual

/-- `Value::into_hashable` (`src/value.rs`), arm for arm; `Rc` sharing is
collapsed, so the `clone` of each element is the element itself. -/
def Value.into_hashable : Value → Except Error HashableValue
  | .none => .ok .none
  | .bool b => .ok (.bool b)
  | .i64 i => .ok (.i64 i)
  | .int bi => .ok (.int bi)
  | .f64 f => .ok (.f64 f)
  | .bytes bs => .ok (.bytes bs)
  | .str s => .ok (.str s)
  | .frozenset v => .ok (.frozenset v)
  | .tuple v => (values_to_hashable v).map HashableValue.tuple
  | _ => .error (.SyntaxErr .valueNotHashable)

/-- `values_to_hashable` (`src/value.rs`): convert every element,
stopping at the first error (`collect::<Result<Vec<_>, _>>`). -/
def values_to_hashable : VList → Except Error HVList
  | .nil => .ok .nil
  | .cons v t =>
    match v.into_hashable with
    | .error e => .error e
    | .ok h =>
      match values_to_hashable t with
      | .error e => .error e
      | .ok l => .ok (.cons h l)

end

mutual

/-- `HashableValue::into_value` (`src/value.rs`): total, no fallible
branch. -/
def HashableValue.into_value : HashableValue → Value
  | .none => .none
  | .bool b => .bool b
  | .i64 i => .i64 i
  | .int bi => .int bi
  | .f64 f => .f64 f
  | .bytes b => .bytes b
  | .str s => .str s
  | .frozenset v => .frozenset v
  | .tuple v => .tuple (hashable_to_values v)

/-- `hashable_to_values` (`src/value.rs`). -/
def hashable_to_values : HVList → VList
  | .nil => .nil
  | .cons h t => .cons h.into_value (hashable_to_values t)

end

mutual

/-- The shape characterisation claim C6 states: the variants
`None/Bool/I64/Int/F64/Bytes/String/FrozenSet` and `Tuple`s all of whose
elements are recursively of this shape. -/
def Value.hashableShape : Value → Bool
  | .none | .bool _ | .i64 _ | .int _ | .f64 _ | .bytes _ | .str _
  | .frozenset _ => true
  | .tuple t => VList.allHashableShape t
  | _ => false

/-- `hashableShape` at every element. -/
def VList.allHashableShape : VList → Bool
  | .nil => true
  | .cons v t => v.hashableShape && VList.allHashableShape t

end

/-- `Except.isOk` spelled out. -/
def exceptIsOk : Except Error HashableValue → Bool
  | .ok _ => true
  | .error _ => false

/-- `exceptIsOk` for element lists. -/
def exceptListIsOk : Except Error HVList → Bool
  | .ok _ => true
  | .error _ => false

/-! ## `Value::into_raw_hashable` (`src/value.rs`)

The `FrozenSet` arm calls `.expect("failed to round-trip")` on the result
of re-converting each element; a panic is modelled as an explicit
`panicked` outcome, distinct from the `Err` results. -/

/-- Outcome of `into_raw_hashable`: a value, an `Err`, or a panic. -/
inductive RawRes where
  | panicked (msg : String)
  | error (e : Error)
  | ok (r : RawHashableValue)
deriving DecidableEq

/-- Outcome of converting a `Vec<Value>` of elements. -/
inductive RawVecRes where
  | panicked (msg : String)
  | error (e : Error)
  | ok (l : RawList)
deriving DecidableEq

/-- Outcome of rebuilding a `BTreeSet<RawHashableValue>`. -/
inductive RawSetRes where
  | panicked (msg : String)
  | ok (l : RawList)
deriving DecidableEq

/-- `BTreeSet::insert` on the ascending element list: keep the existing
element when an equal one is present. -/
def RawHashableValue.setInsert (x : RawHashableValue) : RawList → RawList
  | .nil => .cons x .nil
  | .cons h t =>
    match RawHashableValue.cmp x h with
    | .lt => .cons x (.cons h t)
    | .eq => .cons h t
    | .gt => .cons h (RawHashableValue.setInsert x t)

mutual

theorem sizeOf_into_value : ∀ h : HashableValue, sizeOf h.into_value = sizeOf h
  | .none => rfl
  | .bool _ => rfl
  | .i64 _ => rfl
  | .int _ => rfl
  | .f64 _ => rfl
  | .bytes _ => rfl
  | .str _ => rfl
  | .frozenset _ => rfl
  | .tuple v => by
    simp [HashableValue.into_value, sizeOf_hashable_to_values v]

theorem sizeOf_hashable_to_values : ∀ l : HVList, sizeOf (hashable_to_values l) = sizeOf l
  | .nil => rfl
  | .cons h t => by
    simp [hashable_to_values, sizeOf_into_value h, sizeOf_hashable_to_values t]

end

mutual

/-- `Value::into_raw_hashable` (`src/value.rs`), arm for arm.  The
`FrozenSet` arm re-converts every element through
`into_value().into_raw_hashable()` and panics (`expect`) on an `Err`;
the results are collected into a `BTreeSet` (`rawSetFromIter`). -/
def Value.into_raw_hashable : Value → RawRes
  | .none => .ok .none
  | .bool b => .ok (.bool b)
  | .i64 i => .ok (.i64 i)
  | .int bi => .ok (.int bi)
  | .f64 f => .ok (.f64 f)
  | .bytes bs => .ok (.bytes bs)
  | .str s => .ok (.str s)
  | .frozenset v =>
    match Value.rawSetFromIter .nil v with
    | .panicked m => .panicked m
    | .ok l => .ok (.frozenset l)
  | .tuple v =>
    match values_to_raw_hashable v with
    | .panicked m => .panicked m
    | .error e => .error e
    | .ok l => .ok (.tuple l)
  | _ => .error (.SyntaxErr .valueNotHashable)
termination_by v => sizeOf v
decreasing_by
  all_goals simp_wf

/-- `BTreeSet::from_iter` over
`v.iter().cloned().map(|v| v.into_value().into_raw_hashable().expect("failed to round-trip"))`:
elements are converted left to right (a panic — its own, or `expect` on an
`Err` — propagates) and inserted one by one. -/
def Value.rawSetFromIter (acc : RawList) : HVList → RawSetRes
  | .nil => .ok acc
  | .cons e t =>
    match (e.into_value).into_raw_hashable with
    | .panicked m => .panicked m
    | .error _ => .panicked "failed to round-trip"
    | .ok r => Value.rawSetFromIter (RawHashableValue.setInsert r acc) t
termination_by l => sizeOf l
decreasing_by
  all_goals simp_wf
  all_goals first
    | omega
    | (simp [sizeOf_into_value]
       omega)

/-- `values_to_raw_hashable` (`src/value.rs`): convert every element,
stopping at the first error; a panic propagates. -/
def values_to_raw_hashable : VList → RawVecRes
  | .nil => .ok .nil
  | .cons v t =>
    match v.into_raw_hashable with
    | .panicked m => .panicked m
    | .error e => .error e
    | .ok r =>
      match values_to_raw_hashable t with
      | .panicked m => .panicked m
      | .error e => .error e
      | .ok l => .ok (.cons r l)
termination_by l => sizeOf l
decreasing_by
  all_goals simp_wf
  all_goals omega

end

mutual

theorem into_hashable_shape : ∀ v : Value,
    exceptIsOk v.into_hashable = v.hashableShape ∧
    (v.hashableShape = false →
      v.into_hashable = .error (.SyntaxErr .valueNotHashable))
  | .none => ⟨rfl, fun h => Bool.noConfusion h⟩
  | .bool _ => ⟨rfl, fun h => Bool.noConfusion h⟩
  | .i64 _ => ⟨rfl, fun h => Bool.noConfusion h⟩
  | .int _ => ⟨rfl, fun h => Bool.noConfusion h⟩
  | .f64 _ => ⟨rfl, fun h => Bool.noConfusion h⟩
  | .bytes _ => ⟨rfl, fun h => Bool.noConfusion h⟩
  | .str _ => ⟨rfl, fun h => Bool.noConfusion h⟩
  | .frozenset _ => ⟨rfl, fun h => Bool.noConfusion h⟩
  | .list _ => ⟨rfl, fun _ => rfl⟩
  | .set _ => ⟨rfl, fun _ => rfl⟩
  | .dict _ => ⟨rfl, fun _ => rfl⟩
  | .tuple t => by
    obtain ⟨ih1, ih2⟩ := values_to_hashable_shape t
    rcases hres : values_to_hashable t with e | l
    · rw [hres] at ih1
      have hfalse : VList.allHashableShape t = false := ih1.symm
      constructor
      · show exceptIsOk ((values_to_hashable t).map HashableValue.tuple) =
          VList.allHashableShape t
        rw [hres, hfalse]
        rfl
      · intro _
        show (values_to_hashable t).map HashableValue.tuple =
          .error (.SyntaxErr .valueNotHashable)
        rw [ih2 hfalse]
        rfl
    · rw [hres] at ih1
      have htrue : VList.allHashableShape t = true := ih1.symm
      constructor
      · show exceptIsOk ((values_to_hashable t).map HashableValue.tuple) =
          VList.allHashableShape t
        rw [hres, htrue]
        rfl
      · intro hfalse
        exact Bool.noConfusion (htrue.symm.trans hfalse)

theorem values_to_hashable_shape : ∀ l : VList,
    exceptListIsOk (values_to_hashable l) = VList.allHashableShape l ∧
    (VList.allHashableShape l = false →
      values_to_hashable l = .error (.SyntaxErr .valueNotHashable))
  | .nil => ⟨rfl, fun h => Bool.noConfusion h⟩
  | .cons v t => by
    obtain ⟨ihv1, ihv2⟩ := into_hashable_shape v
    obtain ⟨iht1, iht2⟩ := values_to_hashable_shape t
    rcases hv : v.into_hashable with e | h
    · rw [hv] at ihv1
      have hvfalse : v.hashableShape = false := ihv1.symm
      have herr : e = .SyntaxErr .valueNotHashable := by
        have := (ihv2 hvfalse).symm.trans hv
        exact (Except.error.inj this).symm
      constructor
      · show exceptListIsOk (values_to_hashable (.cons v t)) =
          (v.hashableShape && VList.allHashableShape t)
        simp only [values_to_hashable, hv, hvfalse, Bool.false_and]
        rfl
      · intro _
        show values_to_hashable (.cons v t) = .error (.SyntaxErr .valueNotHashable)
        simp only [values_to_hashable, hv, herr]
    · rw [hv] at ihv1
      have hvtrue : v.hashableShape = true := ihv1.symm
      rcases ht : values_to_hashable t with e2 | l2
      · rw [ht] at iht1
        have htfalse : VList.allHashableShape t = false := iht1.symm
        have herr2 : e2 = .SyntaxErr .valueNotHashable := by
          have := (iht2 htfalse).symm.trans ht
          exact (Except.error.inj this).symm
        constructor
        · show exceptListIsOk (values_to_hashable (.cons v t)) =
            (v.hashableShape && VList.allHashableShape t)
          simp only [values_to_hashable, hv, ht, hvtrue, htfalse, Bool.and_false]
          rfl
        · intro _
          show values_to_hashable (.cons v t) = .error (.SyntaxErr .valueNotHashable)
          simp only [values_to_hashable, hv, ht, herr2]
      · rw [ht] at iht1
        have httrue : VList.allHashableShape t = true := iht1.symm
        constructor
        · show exceptListIsOk (values_to_hashable (.cons v t)) =
            (v.hashableShape && VList.allHashableShape t)
          simp only [values_to_hashable, hv, ht, hvtrue, httrue, Bool.and_true]
          rfl
        · intro hfalse
          show values_to_hashable (.cons v t) = .error (.SyntaxErr .valueNotHashable)
          exfalso
          have : (v.hashableShape && VList.allHashableShape t) = false := hfalse
          rw [hvtrue, httrue] at this
          exact Bool.noConfusion this

end

mutual

theorem into_value_round_trip : ∀ h : HashableValue,
    (h.into_value).into_hashable = .ok h
  | .none => rfl
  | .bool _ => rfl
  | .i64 _ => rfl
  | .int _ => rfl
  | .f64 _ => rfl
  | .bytes _ => rfl
  | .str _ => rfl
  | .frozenset _ => rfl
  | .tuple v => by
    show (values_to_hashable (hashable_to_values v)).map HashableValue.tuple =
      .ok (.tuple v)
    rw [hashable_to_values_round_trip v]
    rfl

theorem hashable_to_values_round_trip : ∀ l : HVList,
    values_to_hashable (hashable_to_values l) = .ok l
  | .nil => rfl
  | .cons h t => by
    show values_to_hashable (.cons h.into_value (hashable_to_values t)) =
      .ok (.cons h t)
    simp only [values_to_hashable, into_value_round_trip h,
      hashable_to_values_round_trip t]

end

/-- Whether a `RawRes` is the panic outcome. -/
def rawResIsPanicked : RawRes → Bool
  | .panicked _ => true
  | _ => false

/-- Whether a `RawVecRes` is the panic outcome. -/
def rawVecResIsPanicked : RawVecRes → Bool
  | .panicked _ => true
  | _ => false

mutual

theorem raw_round_trip_ok : ∀ h : HashableValue,
    ∃ r, (h.into_value).into_raw_hashable = .ok r
  | .none => ⟨.none, by simp [HashableValue.into_value, Value.into_raw_hashable]⟩
  | .bool b => ⟨.bool b, by simp [HashableValue.into_value, Value.into_raw_hashable]⟩
  | .i64 i => ⟨.i64 i, by simp [HashableValue.into_value, Value.into_raw_hashable]⟩
  | .int bi => ⟨.int bi, by simp [HashableValue.into_value, Value.into_raw_hashable]⟩
  | .f64 f => ⟨.f64 f, by simp [HashableValue.into_value, Value.into_raw_hashable]⟩
  | .bytes bs => ⟨.bytes bs, by simp [HashableValue.into_value, Value.into_raw_hashable]⟩
  | .str s => ⟨.str s, by simp [HashableValue.into_value, Value.into_raw_hashable]⟩
  | .frozenset s => by
    obtain ⟨out, hout⟩ := raw_set_from_iter_ok .nil s
    exact ⟨.frozenset out,
      by simp [HashableValue.into_value, Value.into_raw_hashable, hout]⟩
  | .tuple v => by
    obtain ⟨rl, hrl⟩ := raw_vec_round_trip_ok v
    exact ⟨.tuple rl,
      by simp [HashableValue.into_value, Value.into_raw_hashable, hrl]⟩

theorem raw_set_from_iter_ok : ∀ (acc : RawList) (l : HVList),
    ∃ out, Value.rawSetFromIter acc l = .ok out
  | acc, .nil => ⟨acc, by simp [Value.rawSetFromIter]⟩
  | acc, .cons e t => by
    obtain ⟨r, hr⟩ := raw_round_trip_ok e
    obtain ⟨out, hout⟩ := raw_set_from_iter_ok (RawHashableValue.setInsert r acc) t
    exact ⟨out, by simp [Value.rawSetFromIter, hr, hout]⟩

theorem raw_vec_round_trip_ok : ∀ l : HVList,
    ∃ rl, values_to_raw_hashable (hashable_to_values l) = .ok rl
  | .nil => ⟨.nil, by simp [hashable_to_values, values_to_raw_hashable]⟩
  | .cons h t => by
    obtain ⟨r, hr⟩ := raw_round_trip_ok h
    obtain ⟨rl, hrl⟩ := raw_vec_round_trip_ok t
    exact ⟨.cons r rl,
      by simp [hashable_to_values, values_to_raw_hashable, hr, hrl]⟩

end

mutual

theorem raw_no_panic : ∀ v : Value, rawResIsPanicked v.into_raw_hashable = false
  | .none => by simp [Value.into_raw_hashable, rawResIsPanicked]
  | .bool _ => by simp [Value.into_raw_hashable, rawResIsPanicked]
  | .i64 _ => by simp [Value.into_raw_hashable, rawResIsPanicked]
  | .int _ => by simp [Value.into_raw_hashable, rawResIsPanicked]
  | .f64 _ => by simp [Value.into_raw_hashable, rawResIsPanicked]
  | .bytes _ => by simp [Value.into_raw_hashable, rawResIsPanicked]
  | .str _ => by simp [Value.into_raw_hashable, rawResIsPanicked]
  | .list _ => by simp [Value.into_raw_hashable, rawResIsPanicked]
  | .set _ => by simp [Value.into_raw_hashable, rawResIsPanicked]
  | .dict _ => by simp [Value.into_raw_hashable, rawResIsPanicked]
  | .frozenset s => by
    obtain ⟨out, hout⟩ := raw_set_from_iter_ok .nil s
    simp [Value.into_raw_hashable, hout, rawResIsPanicked]
  | .tuple t => by
    have h := raw_vec_no_panic t
    rcases hres : values_to_raw_hashable t with m | e | l
    · rw [hres] at h
      exact absurd h (by simp [rawVecResIsPanicked])
    · simp [Value.into_raw_hashable, hres, rawResIsPanicked]
    · simp [Value.into_raw_hashable, hres, rawResIsPanicked]

theorem raw_vec_no_panic : ∀ l : VList,
    rawVecResIsPanicked (values_to_raw_hashable l) = false
  | .nil => by simp [values_to_raw_hashable, rawVecResIsPanicked]
  | .cons v t => by
    have hv := raw_no_panic v
    have ht := raw_vec_no_panic t
    rcases hres : v.into_raw_hashable with m | e | r
    · rw [hres] at hv
      exact absurd hv (by simp [rawResIsPanicked])
    · simp [values_to_raw_hashable, hres, rawVecResIsPanicked]
    · rcases hres2 : values_to_raw_hashable t with m2 | e2 | l2
      · rw [hres2] at ht
        exact absurd ht (by simp [rawVecResIsPanicked])
      · simp [values_to_raw_hashable, hres, hres2, rawVecResIsPanicked]
      · simp [values_to_raw_hashable, hres, hres2, rawVecResIsPanicked]

end

/-- C6: `Value::into_hashable` returns `Ok` exactly for the hashable
shapes (`None`, `Bool`, `I64`, `Int`, `F64`, `Bytes`, `String`,
`FrozenSet`, and `Tuple`s of recursively hashable elements), and returns
`Err(Syntax(ValueNotHashable))` for every other input (`List`, `Set`,
`Dict`, and any `Tuple` containing one of those). -/
theorem c6_into_hashable : ∀ v : Value,
    exceptIsOk v.into_hashable = v.hashableShape ∧
    (v.hashableShape = false →
      v.into_hashable = .error (.SyntaxErr .valueNotHashable)) :=
  into_hashable_shape

/-- C6, witness: a `List` input produces the `ValueNotHashable` error. -/
theorem c6_witness :
    (Value.list .nil).into_hashable = .error (.SyntaxErr .valueNotHashable) :=
  (c6_into_hashable (.list .nil)).2 (by decide)

/-- C9: `HashableValue::into_value` is total (a total Lean function by
construction — the source has no fallible or panicking branch), and
`Value::into_hashable` applied to its result returns `Ok` of the original
value, for every `HashableValue`. -/
theorem c9_round_trip : ∀ h : HashableValue,
    (h.into_value).into_hashable = .ok h :=
  into_value_round_trip

/-- C10: `Value::into_raw_hashable` never reaches the
`expect("failed to round-trip")` panic: converting any `HashableValue`
element through `into_value().into_raw_hashable()` succeeds, so the
function's outcome is never the panic outcome for any input `Value`. -/
theorem c10_no_panic :
    (∀ h : HashableValue, ∃ r, (h.into_value).into_raw_hashable = .ok r) ∧
    (∀ v : Value, rawResIsPanicked v.into_raw_hashable = false) :=
  ⟨raw_round_trip_ok, raw_no_panic⟩

/-! ## The shared-ownership wrappers (`src/value.rs`)

`Shared<T>` is `Rc<RefCell<T>>`, `SharedFrozen<T>` is `Rc<T>`.  In the
model a wrapper is its allocation identity (`Rc::as_ptr`, the
"provenance" token exposed to the encoder memo) together with the
payload it names; `Rc::ptr_eq` is identity equality.  The `eq` of both
`PartialEq` impls short-circuits on `ptr_eq` and otherwise compares the
payloads with the payload type's equality, passed here as `eqT`. -/

structure Shared (T : Type) where
  id : Nat
  payload : T

structure SharedFrozen (T : Type) where
  id : Nat
  payload : T

/-- `impl PartialEq for Shared<T>` (`src/value.rs`): `ptr_eq`
short-circuit, then structural comparison of the borrowed payloads. -/
def Shared.eqb {T : Type} (eqT : T → T → Bool) (a b : Shared T) : Bool :=
  if a.id = b.id then true else eqT a.payload b.payload

/-- `impl PartialEq for SharedFrozen<T>` (`src/value.rs`): same shape. -/
def SharedFrozen.eqb {T : Type} (eqT : T → T → Bool) (a b : SharedFrozen T) : Bool :=
  if a.id = b.id then true else eqT a.payload b.payload

/-- C8: for both wrappers, two handles naming the same allocation are
equal whatever the payload comparison would say (the payloads are never
inspected — the identity case holds for every pair of payloads and every
`eqT`), and two handles with different identities are equal exactly when
the payloads are structurally equal. -/
theorem c8_shared_eq :
    (∀ (T : Type) (eqT : T → T → Bool) (i : Nat) (p q : T),
      Shared.eqb eqT ⟨i, p⟩ ⟨i, q⟩ = true) ∧
    (∀ (T : Type) (eqT : T → T → Bool) (a b : Shared T), a.id ≠ b.id →
      Shared.eqb eqT a b = eqT a.payload b.payload) ∧
    (∀ (T : Type) (eqT : T → T → Bool) (i : Nat) (p q : T),
      SharedFrozen.eqb eqT ⟨i, p⟩ ⟨i, q⟩ = true) ∧
    (∀ (T : Type) (eqT : T → T → Bool) (a b : SharedFrozen T), a.id ≠ b.id →
      SharedFrozen.eqb eqT a b = eqT a.payload b.payload) := by
  refine ⟨fun T eqT i p q => ?_, fun T eqT a b h => ?_,
    fun T eqT i p q => ?_, fun T eqT a b h => ?_⟩
  · simp [Shared.eqb]
  · simp [Shared.eqb, h]
  · simp [SharedFrozen.eqb]
  · simp [SharedFrozen.eqb, h]

/-- C8, witness: same identity with different payloads compares `true`
without consulting the payload comparison; different identities fall back
to the payloads. -/
theorem c8_witness :
    Shared.eqb (fun x y : Nat => x == y) ⟨0, 5⟩ ⟨0, 7⟩ = true ∧
    Shared.eqb (fun x y : Nat => x == y) ⟨0, 5⟩ ⟨1, 5⟩ = (5 == 5) ∧
    SharedFrozen.eqb (fun x y : Nat => x == y) ⟨0, 5⟩ ⟨0, 7⟩ = true ∧
    SharedFrozen.eqb (fun x y : Nat => x == y) ⟨0, 5⟩ ⟨1, 7⟩ = (5 == 7) :=
  ⟨c8_shared_eq.1 Nat _ 0 5 7,
   c8_shared_eq.2.1 Nat _ ⟨0, 5⟩ ⟨1, 5⟩ (by decide),
   c8_shared_eq.2.2.1 Nat _ 0 5 7,
   c8_shared_eq.2.2.2 Nat _ ⟨0, 5⟩ ⟨1, 7⟩ (by decide)⟩

deriving instance DecidableEq for Except

/-! ## The opcode table (`src/consts.rs`) -/

/-- The `Opcode` enumeration (`src/consts.rs`), one constructor per
opcode, discriminants as the wire bytes. -/
inductive Opcode where
  | Mark | Stop | Pop | PopMark | Dup | Float | Int | BinInt | BinInt1
  | Long | BinInt2 | None | String | BinString | ShortBinString | Unicode
  | BinUnicode | Append | Dict | EmptyDict | Appends | List | EmptyList
  | SetItem | Tuple | EmptyTuple | SetItems | BinFloat | Put | BinPut
  | LongBinPut | Get | BinGet | LongBinGet | Global | StackGlobal | Reduce
  | Proto | Tuple1 | Tuple2 | Tuple3 | NewTrue | NewFalse | Long1 | Long4
  | BinBytes | ShortBinBytes | ShortBinUnicode | BinUnicode8 | BinBytes8
  | EmptySet | AddItems | FrozenSet | Memoize | Frame | Inst | Obj | Build
  | NewObj | NewObjEx | ByteArray8
deriving DecidableEq

/-- `impl TryFrom<u8> for Opcode` (`src/consts.rs`): the enumerated bytes
map to their opcode; every other byte maps to
`ErrorCode::Unsupported(value as char)`. -/
def Opcode.try_from : Nat → Except ErrorCode Opcode
  | 0x28 => .ok .Mark
  | 0x2E => .ok .Stop
  | 0x30 => .ok .Pop
  | 0x31 => .ok .PopMark
  | 0x32 => .ok .Dup
  | 0x46 => .ok .Float
  | 0x49 => .ok .Int
  | 0x4A => .ok .BinInt
  | 0x4B => .ok .BinInt1
  | 0x4C => .ok .Long
  | 0x4D => .ok .BinInt2
  | 0x4E => .ok .None
  | 0x53 => .ok .String
  | 0x54 => .ok .BinString
  | 0x55 => .ok .ShortBinString
  | 0x56 => .ok .Unicode
  | 0x58 => .ok .BinUnicode
  | 0x61 => .ok .Append
  | 0x64 => .ok .Dict
  | 0x7D => .ok .EmptyDict
  | 0x65 => .ok .Appends
  | 0x6C => .ok .List
  | 0x5D => .ok .EmptyList
  | 0x73 => .ok .SetItem
  | 0x74 => .ok .Tuple
  | 0x29 => .ok .EmptyTuple
  | 0x75 => .ok .SetItems
  | 0x47 => .ok .BinFloat
  | 0x70 => .ok .Put
  | 0x71 => .ok .BinPut
  | 0x72 => .ok .LongBinPut
  | 0x67 => .ok .Get
  | 0x68 => .ok .BinGet
  | 0x6A => .ok .LongBinGet
  | 0x63 => .ok .Global
  | 0x93 => .ok .StackGlobal
  | 0x52 => .ok .Reduce
  | 0x80 => .ok .Proto
  | 0x85 => .ok .Tuple1
  | 0x86 => .ok .Tuple2
  | 0x87 => .ok .Tuple3
  | 0x88 => .ok .NewTrue
  | 0x89 => .ok .NewFalse
  | 0x8A => .ok .Long1
  | 0x8B => .ok .Long4
  | 0x42 => .ok .BinBytes
  | 0x43 => .ok .ShortBinBytes
  | 0x8C => .ok .ShortBinUnicode
  | 0x8D => .ok .BinUnicode8
  | 0x8E => .ok .BinBytes8
  | 0x8F => .ok .EmptySet
  | 0x90 => .ok .AddItems
  | 0x91 => .ok .FrozenSet
  | 0x94 => .ok .Memoize
  | 0x95 => .ok .Frame
  | 0x69 => .ok .Inst
  | 0x6F => .ok .Obj
  | 0x62 => .ok .Build
  | 0x81 => .ok .NewObj
  | 0x92 => .ok .NewObjEx
  | 0x96 => .ok .ByteArray8
  | value => .error (.unsupported (Char.ofNat value))

/-- The bytes of the opcode table, in the order of `try_from`'s arms. -/
def opcodeBytes : List Nat :=
  [0x28, 0x2E, 0x30, 0x31, 0x32, 0x46, 0x49, 0x4A, 0x4B, 0x4C, 0x4D, 0x4E,
   0x53, 0x54, 0x55, 0x56, 0x58, 0x61, 0x64, 0x7D, 0x65, 0x6C, 0x5D, 0x73,
   0x74, 0x29, 0x75, 0x47, 0x70, 0x71, 0x72, 0x67, 0x68, 0x6A, 0x63, 0x93,
   0x52, 0x80, 0x85, 0x86, 0x87, 0x88, 0x89, 0x8A, 0x8B, 0x42, 0x43, 0x8C,
   0x8D, 0x8E, 0x8F, 0x90, 0x91, 0x94, 0x95, 0x69, 0x6F, 0x62, 0x81, 0x92,
   0x96]

/-- C7, counterexample: the byte `0xFF` is not in the opcode table, and
`try_from` yields `ErrorCode::Unsupported('\xFF')` — the same kind used
for recognized-but-unimplemented features — not a distinct
`UnknownOpcode` kind. -/
theorem c7_counterexample :
    opcodeBytes.contains 0xFF = false ∧
    Opcode.try_from 0xFF = .error (.unsupported (Char.ofNat 0xFF)) ∧
    Opcode.try_from 0xFF ≠ .error (.unknownOpcode 0xFF) := by
  decide

/-- C7, amended: for every byte outside the opcode table, `try_from`
fails with `ErrorCode::Unsupported(byte as char)`; no separate
`UnknownOpcode` kind is produced for unknown bytes. -/
theorem c7_amended (b : Nat) (hb : b < 256) (hmem : opcodeBytes.contains b = false) :
    Opcode.try_from b = .error (.unsupported (Char.ofNat b)) := by
  have H : ∀ p : Fin 256, opcodeBytes.contains p.val = false →
      Opcode.try_from p.val = .error (.unsupported (Char.ofNat p.val)) := by decide
  exact H ⟨b, hb⟩ hmem

/-- C7, witness: the amended statement at the byte `0xC0`. -/
theorem c7_witness :
    Opcode.try_from 0xC0 = .error (.unsupported (Char.ofNat 0xC0)) :=
  c7_amended 0xC0 (by decide) (by decide)

example : intToF64 1 = f64BitsOne := by decide
example : intToF64 0 = f64BitsZero := by decide
example : intToF64 (2 ^ 53 + 1) = intToF64 (2 ^ 53) := by decide
example : f64Pcmp (intToF64 1) f64BitsOne = some .eq := by decide
example : f64Pcmp f64BitsQNaN f64BitsOne = none := by decide
example : f64TotalCmp f64BitsNegQNaN f64BitsQNaN = .lt := by decide
example : f64ToI64 f64BitsQNaN = 0 := by decide
example : f64ToI64 f64BitsOne = 1 := by decide

example : HashableValue.cmp (.f64 f64BitsOne) (.f64 f64BitsQNaN) = .lt := by decide
example : HashableValue.cmp (.f64 f64BitsQNaN) (.f64 f64BitsZero) = .lt := by decide
example : HashableValue.cmp (.f64 f64BitsOne) (.f64 f64BitsZero) = .gt := by decide
example : HashableValue.cmp (.f64 f64BitsQNaN) (.int (-5)) = .gt := by decide
example : HashableValue.cmp (.bool true) (.f64 f64BitsOne) = .eq := by decide
example : HashableValue.cmp (.int 1) (.f64 f64BitsOne) = .eq := by decide
example :
    HashableValue.cmp
      (.tuple (hvList [.i64 (2 ^ 53 + 1), .i64 0]))
      (.tuple (hvList [.f64 (intToF64 (2 ^ 53)), .i64 1])) = .lt := by decide
example :
    HashableValue.cmp
      (.tuple (hvList [.f64 (intToF64 (2 ^ 53)), .i64 1]))
      (.tuple (hvList [.i64 (2 ^ 53), .i64 2])) = .lt := by decide
example :
    HashableValue.cmp
      (.tuple (hvList [.i64 (2 ^ 53 + 1), .i64 0]))
      (.tuple (hvList [.i64 (2 ^ 53), .i64 2])) = .gt := by decide

end Pickled
